import Mathlib

/-!
Verification of the mock-llm gateway core (a Rust HTTP service that mimics
the OpenAI chat-completions contract) against its natural-language
specification.  Text is modelled as `List Char` (Unicode scalar values),
which is the granularity at which the source manipulates strings
(`str::chars`, `char_indices`); byte-level representation details are
irrelevant to the properties below.  Lowercasing is modelled per scalar
with `Char.toLower`.  The compiled regex engine (`regex::Regex`) is
modelled as an abstract matcher function together with the pattern and the
case-insensitivity flag handed to the builder.
-/

namespace MockLlm

/-- Case sensitivity of a string condition (src/kernel.rs `CaseSensitivity`). -/
inductive CaseSensitivity where
  | sensitive
  | insensitive
deriving DecidableEq, Repr

/-- Model of a compiled `regex::Regex`: the pattern and the
`case_insensitive` flag given to `RegexBuilder`, together with the engine's
matching function (abstract). -/
structure CompiledRegex where
  pattern : List Char
  caseInsensitive : Bool
  isMatch : List Char → Bool

/-- src/kernel.rs `CompiledCondition`. -/
inductive CompiledCondition where
  | contains (needle : List Char) (case : CaseSensitivity)
  | equals (value : List Char) (case : CaseSensitivity)
  | startsWith (value : List Char) (case : CaseSensitivity)
  | endsWith (value : List Char) (case : CaseSensitivity)
  | regex (re : CompiledRegex)

/-- src/kernel.rs `CompiledWhen`. -/
structure CompiledWhen where
  any : List CompiledCondition
  all : List CompiledCondition
  none : List CompiledCondition

/-- Rust `str::to_lowercase`, modelled per Unicode scalar. -/
def toLowerList (l : List Char) : List Char :=
  l.map Char.toLower

/-- Rust `str::contains` (substring containment over scalars). -/
def containsSub (hay needle : List Char) : Bool :=
  match hay with
  | [] => needle.isEmpty
  | _ :: rest => needle.isPrefixOf hay || containsSub rest needle

/-- src/kernel.rs `condition_matches`: `lower` is the precomputed lowercased
input text, exactly as in the source. -/
def condition_matches (cond : CompiledCondition) (text lower : List Char) : Bool :=
  match cond with
  | .contains needle case =>
    match case with
    | .sensitive => containsSub text needle
    | .insensitive => containsSub lower (toLowerList needle)
  | .equals value case =>
    match case with
    | .sensitive => text = value
    | .insensitive => lower = toLowerList value
  | .startsWith value case =>
    match case with
    | .sensitive => value.isPrefixOf text
    | .insensitive => (toLowerList value).isPrefixOf lower
  | .endsWith value case =>
    match case with
    | .sensitive => value.isSuffixOf text
    | .insensitive => (toLowerList value).isSuffixOf lower
  | .regex re => re.isMatch text

/-- src/kernel.rs `compiled_matches`. -/
def compiled_matches (w : CompiledWhen) (text : List Char) : Bool :=
  let lower := toLowerList text
  let any_ok :=
    if w.any.isEmpty then true
    else w.any.any (fun cond => condition_matches cond text lower)
  let all_ok := w.all.all (fun cond => condition_matches cond text lower)
  let none_ok := w.none.all (fun cond => !condition_matches cond text lower)
  any_ok && all_ok && none_ok

/-- C2: a compiled when-clause matches `t` iff `any_ok`, `all_ok` and
`none_ok` all hold: `any` is empty or some condition in `any` matches,
every condition in `all` matches, and no condition in `none` matches. -/
theorem compiled_matches_iff (w : CompiledWhen) (t : List Char) :
    compiled_matches w t = true ↔
      ((w.any = [] ∨ ∃ c ∈ w.any, condition_matches c t (toLowerList t) = true) ∧
       (∀ c ∈ w.all, condition_matches c t (toLowerList t) = true) ∧
       (∀ c ∈ w.none, condition_matches c t (toLowerList t) = false)) := by
  by_cases h : w.any = []
  · simp [compiled_matches, h, List.all_eq_true, and_assoc]
  · simp [compiled_matches, h, List.isEmpty_iff, List.any_eq_true, List.all_eq_true,
      and_assoc]

/-- src/config.rs `Condition` (uncompiled form, as parsed from YAML). -/
inductive Condition where
  | contains (s : List Char) (case : Option CaseSensitivity)
  | equals (s : List Char) (case : Option CaseSensitivity)
  | startsWith (s : List Char) (case : Option CaseSensitivity)
  | endsWith (s : List Char) (case : Option CaseSensitivity)
  | regex (source : List Char)
deriving DecidableEq, Repr

/-- src/config.rs `RuleWhen`. -/
structure RuleWhen where
  any : List Condition
  all : List Condition
  none : List Condition
deriving DecidableEq, Repr

/-- src/config.rs `PickStrategy`. -/
inductive PickStrategy where
  | roundRobin
  | random
  | weighted
deriving DecidableEq, Repr

/-- src/config.rs `StaticReply`. -/
structure StaticReply where
  content : List Char
  reasoning : Option (List Char)
  weight : Option Nat
deriving DecidableEq, Repr

/-- src/config.rs `ModelRule`. -/
structure ModelRule where
  default : Bool
  when : Option RuleWhen
  pick : Option PickStrategy
  replies : List StaticReply
deriving DecidableEq, Repr

/-- src/config.rs `StaticConfig`. -/
structure StaticConfig where
  pick : Option PickStrategy
  stream_chunk_chars : Option Nat
  rules : List ModelRule
deriving DecidableEq, Repr

/-- src/kernel.rs `MatchCache`. -/
structure MatchCache where
  compiled : List (Option CompiledWhen)
  default_index : Option Nat

/-- src/kernel.rs `parse_regex_literal`, scan for the index of the last
unescaped `/` (the `for (i, ch) in source.char_indices().skip(1)` loop with
its `escaped` flag). `i` is the position of the current character. -/
def find_last_slash : List Char → Nat → Bool → Option Nat → Option Nat
  | [], _, _, last => last
  | c :: rest, i, escaped, last =>
    if escaped then find_last_slash rest (i + 1) false last
    else if c = '\\' then find_last_slash rest (i + 1) true last
    else if c = '/' then find_last_slash rest (i + 1) false (some i)
    else find_last_slash rest (i + 1) false last

/-- src/kernel.rs `parse_regex_literal`, flags loop: only `i` sets the
case-insensitive flag, space and tab are skipped, anything else errors. -/
def parse_flags : List Char → Bool → Except (List Char) Bool
  | [], acc => .ok acc
  | c :: rest, acc =>
    if c = 'i' then parse_flags rest true
    else if c = ' ' ∨ c = '\t' then parse_flags rest acc
    else .error "unsupported regex flags".data

/-- src/kernel.rs `parse_regex_literal`: `/pattern/flags` with only the `i`
flag recognized (whitespace in the flags part is skipped). Returns the
pattern and the `i`-flag. Positions are scalar positions, which agree with
the source's byte offsets on the slicing boundaries used here. -/
def parse_regex_literal (source : List Char) : Except (List Char) (List Char × Bool) :=
  if source.head? = some '/' then
    match find_last_slash (source.drop 1) 1 false none with
    | none => .error "missing closing /".data
    | some e =>
      (parse_flags (source.drop (e + 1)) false).map
        (fun flag_i => ((source.drop 1).take (e - 1), flag_i))
  else .error "regex must be in /pattern/flags form".data

/-- The flags part of a regex literal (`&source[end+1..]`), exposed for
stating properties about `parse_regex_literal`. -/
def regex_flags_of (source : List Char) : Option (List Char) :=
  if source.head? = some '/' then
    (find_last_slash (source.drop 1) 1 false none).map (fun e => source.drop (e + 1))
  else none

/-- src/kernel.rs `compile_condition`. `build` abstracts
`RegexBuilder::new(pattern).case_insensitive(flag_i).build()`, i.e. the
regex engine; the builder's `case_insensitive` flag is set exactly when the
`i` flag was parsed. -/
def compile_condition (build : List Char → Bool → (List Char → Bool)) :
    Condition → Except (List Char) CompiledCondition
  | .contains s case => .ok (.contains s (case.getD .sensitive))
  | .equals s case => .ok (.equals s (case.getD .sensitive))
  | .startsWith s case => .ok (.startsWith s (case.getD .sensitive))
  | .endsWith s case => .ok (.endsWith s (case.getD .sensitive))
  | .regex source =>
    match parse_regex_literal source with
    | .error e => .error e
    | .ok (pattern, flag_i) =>
      .ok (.regex { pattern := pattern, caseInsensitive := flag_i,
                    isMatch := build pattern flag_i })

/-- src/kernel.rs `compile_when`. -/
def compile_when (build : List Char → Bool → (List Char → Bool)) (w : RuleWhen) :
    Except (List Char) CompiledWhen := do
  let any ← w.any.mapM (compile_condition build)
  let all ← w.all.mapM (compile_condition build)
  let none ← w.none.mapM (compile_condition build)
  .ok { any := any, all := all, none := none }

/-- src/kernel.rs `build_match_cache` loop body, processing rules from
index `idx` on: rules with a `when` are compiled (first failure aborts),
rules without one contribute `None` and the first such rule with
`default=true` fixes `default_index`. -/
def build_cache_go (build : List Char → Bool → (List Char → Bool)) (idx : Nat) :
    List ModelRule → Except (List Char) (List (Option CompiledWhen) × Option Nat)
  | [] => .ok ([], none)
  | rule :: rest =>
    match rule.when with
    | some w =>
      match compile_when build w with
      | .error e => .error e
      | .ok cw =>
        match build_cache_go build (idx + 1) rest with
        | .error e => .error e
        | .ok (cs, d) => .ok (some cw :: cs, d)
    | none =>
      match build_cache_go build (idx + 1) rest with
      | .error e => .error e
      | .ok (cs, d) =>
        .ok ((none : Option CompiledWhen) :: cs, if rule.default then some idx else d)

/-- src/kernel.rs `build_match_cache`. -/
def build_match_cache (build : List Char → Bool → (List Char → Bool))
    (cfg : StaticConfig) : Except (List Char) MatchCache :=
  (build_cache_go build 0 cfg.rules).map
    (fun p => { compiled := p.1, default_index := p.2 })

/-- The `for (idx, compiled) in cache.compiled.iter().enumerate()` loop in
src/handlers.rs `select_rule_index`: first index whose compiled `when`
matches the text (entries without a compiled `when` are skipped). -/
def find_match_idx (compiled : List (Option CompiledWhen)) (text : List Char) : Option Nat :=
  match compiled with
  | [] => none
  | o :: rest =>
    match o with
    | some w =>
      if compiled_matches w text then some 0
      else (find_match_idx rest text).map (· + 1)
    | none => (find_match_idx rest text).map (· + 1)

/-- src/handlers.rs `select_rule_index`. -/
def select_rule_index (cfg : StaticConfig) (match_cache : Option MatchCache)
    (user_text : Option (List Char)) : Option Nat :=
  match match_cache with
  | none => none
  | some cache =>
    let from_loop :=
      match user_text with
      | some text => find_match_idx cache.compiled text
      | none => none
    match from_loop with
    | some idx => some idx
    | none =>
      match cache.default_index with
      | some d => some d
      | none => if cfg.rules.length = 1 then some 0 else none

/-- Rule `i` of the compiled list has a `when` that matches `t`. -/
def MatchesAt (compiled : List (Option CompiledWhen)) (t : List Char) (i : Nat) : Prop :=
  ∃ w, compiled.get? i = some (some w) ∧ compiled_matches w t = true

theorem find_match_idx_eq_some (compiled : List (Option CompiledWhen)) (t : List Char)
    (i : Nat) (hm : MatchesAt compiled t i) (hfirst : ∀ j < i, ¬ MatchesAt compiled t j) :
    find_match_idx compiled t = some i := by
  induction compiled generalizing i with
  | nil => obtain ⟨w, hw, _⟩ := hm; simp at hw
  | cons o rest ih =>
    cases i with
    | zero =>
      obtain ⟨w, hw, hmt⟩ := hm
      simp only [List.get?_cons_zero, Option.some_inj] at hw
      subst hw
      simp [find_match_idx, hmt]
    | succ i =>
      obtain ⟨w, hw, hmt⟩ := hm
      simp only [List.get?_cons_succ] at hw
      have hrest : find_match_idx rest t = some i := by
        apply ih
        · exact ⟨w, hw, hmt⟩
        · intro j hj hmj
          obtain ⟨w', hw', hmt'⟩ := hmj
          exact hfirst (j + 1) (by omega) ⟨w', by simpa using hw', hmt'⟩
      match o with
      | none => simp [find_match_idx, hrest]
      | some w0 =>
        have h0 : ¬ MatchesAt (some w0 :: rest) t 0 := hfirst 0 (by omega)
        have : compiled_matches w0 t = false := by
          by_contra hb
          exact h0 ⟨w0, by simp, by simpa using hb⟩
        simp [find_match_idx, this, hrest]

theorem find_match_idx_eq_none (compiled : List (Option CompiledWhen)) (t : List Char)
    (h : ∀ i, ¬ MatchesAt compiled t i) :
    find_match_idx compiled t = none := by
  induction compiled with
  | nil => rfl
  | cons o rest ih =>
    have hrest : find_match_idx rest t = none := by
      apply ih
      intro i hmi
      obtain ⟨w, hw, hmt⟩ := hmi
      exact h (i + 1) ⟨w, by simpa using hw, hmt⟩
    match o with
    | none => simp [find_match_idx, hrest]
    | some w0 =>
      have : compiled_matches w0 t = false := by
        by_contra hb
        exact h 0 ⟨w0, by simp, by simpa using hb⟩
      simp [find_match_idx, this, hrest]

theorem build_cache_go_compiled_shape (build : List Char → Bool → (List Char → Bool))
    (rules : List ModelRule) (idx : Nat) (cs : List (Option CompiledWhen)) (d : Option Nat)
    (h : build_cache_go build idx rules = .ok (cs, d)) :
    cs.length = rules.length ∧
    (∀ i rule, rules.get? i = some rule → rule.when = none →
      cs.get? i = some none) ∧
    (∀ dd, d = some dd → ∃ rule, rules.get? (dd - idx) = some rule ∧
      rule.default = true ∧ rule.when = none ∧ idx ≤ dd) ∧
    ((∀ rule ∈ rules, rule.default = false) → d = none) := by
  induction rules generalizing idx cs d with
  | nil =>
    simp only [build_cache_go, Except.ok.injEq, Prod.mk.injEq] at h
    obtain ⟨h1, h2⟩ := h
    subst h1; subst h2
    refine ⟨rfl, by intro i rule hr _; simp at hr, ?_, by intro _; rfl⟩
    intro dd hdd
    simp at hdd
  | cons rule rest ih =>
    match hwhen : rule.when with
    | some w =>
      cases hcw : compile_when build w with
      | error e => simp [build_cache_go, hwhen, hcw] at h
      | ok cw =>
        cases hrest : build_cache_go build (idx + 1) rest with
        | error e => simp [build_cache_go, hwhen, hcw, hrest] at h
        | ok p =>
          obtain ⟨cs', d'⟩ := p
          simp only [build_cache_go, hwhen, hcw, hrest, Except.ok.injEq,
            Prod.mk.injEq] at h
          obtain ⟨hcs, hd⟩ := h
          subst hcs; subst hd
          obtain ⟨ih1, ih2, ih3, ih4⟩ := ih (idx + 1) cs' d' hrest
          refine ⟨by simp [ih1], ?_, ?_, ?_⟩
          · intro i r hr hrw
            cases i with
            | zero =>
              simp only [List.get?_cons_zero, Option.some_inj] at hr
              subst hr; rw [hwhen] at hrw; exact absurd hrw (by simp)
            | succ i =>
              simp only [List.get?_cons_succ] at hr ⊢
              exact ih2 i r hr hrw
          · intro dd hdd
            obtain ⟨r, hr, hrd, hrw, hle⟩ := ih3 dd hdd
            have heq : dd - idx = (dd - (idx + 1)) + 1 := by omega
            exact ⟨r, by rw [heq]; simpa using hr, hrd, hrw, by omega⟩
          · intro hall
            exact ih4 (fun r hr => hall r (List.mem_cons_of_mem _ hr))
    | none =>
      cases hrest : build_cache_go build (idx + 1) rest with
      | error e => simp [build_cache_go, hwhen, hrest] at h
      | ok p =>
        obtain ⟨cs', d'⟩ := p
        simp only [build_cache_go, hwhen, hrest, Except.ok.injEq, Prod.mk.injEq] at h
        obtain ⟨hcs, hd⟩ := h
        subst hcs; subst hd
        obtain ⟨ih1, ih2, ih3, ih4⟩ := ih (idx + 1) cs' d' hrest
        refine ⟨by simp [ih1], ?_, ?_, ?_⟩
        · intro i r hr hrw
          cases i with
          | zero => simp
          | succ i =>
            simp only [List.get?_cons_succ] at hr ⊢
            exact ih2 i r hr hrw
        · intro dd hdd
          by_cases hdef : rule.default = true
          · rw [if_pos hdef] at hdd
            obtain rfl : idx = dd := by simpa using hdd
            exact ⟨rule, by simp, hdef, hwhen, le_refl _⟩
          · rw [if_neg hdef] at hdd
            obtain ⟨r, hr, hrd, hrw, hle⟩ := ih3 dd hdd
            have heq : dd - idx = (dd - (idx + 1)) + 1 := by omega
            exact ⟨r, by rw [heq]; simpa using hr, hrd, hrw, by omega⟩
        · intro hall
          have hrd : rule.default = false := hall rule (by simp)
          rw [hrd]
          simp only [Bool.false_eq_true, if_false]
          exact ih4 (fun r hr => hall r (List.mem_cons_of_mem _ hr))

/-- C1: static rule selection is first-match-wins in config order.  For a
match cache built from the config: (1) if rule `i` is the first whose
compiled `when` matches the input, it is selected; (2) if no conditioned
rule matches, the cached default index is selected, and that index points
at a rule with `default=true` and no `when`; (3) if no conditioned rule
matches, no default was marked, and the rule list has exactly one rule,
that rule (index 0) is selected. -/
theorem select_rule_index_spec (build : List Char → Bool → (List Char → Bool))
    (cfg : StaticConfig) (cache : MatchCache) (t : List Char)
    (hcache : build_match_cache build cfg = .ok cache) :
    (∀ i, MatchesAt cache.compiled t i → (∀ j < i, ¬ MatchesAt cache.compiled t j) →
        select_rule_index cfg (some cache) (some t) = some i) ∧
    ((∀ i, ¬ MatchesAt cache.compiled t i) →
        (∀ d, cache.default_index = some d →
            select_rule_index cfg (some cache) (some t) = some d ∧
            ∃ rule, cfg.rules.get? d = some rule ∧ rule.default = true ∧
              rule.when = none) ∧
        (cache.default_index = none → cfg.rules.length = 1 →
            select_rule_index cfg (some cache) (some t) = some 0)) := by
  have hgo : build_cache_go build 0 cfg.rules = .ok (cache.compiled, cache.default_index) := by
    unfold build_match_cache at hcache
    cases hg : build_cache_go build 0 cfg.rules with
    | error e => rw [hg] at hcache; simp [Except.map] at hcache
    | ok p =>
      rw [hg] at hcache
      simp only [Except.map, Except.ok.injEq] at hcache
      rw [← hcache]
  obtain ⟨hlen, hnone, hdflt, hnodef⟩ :=
    build_cache_go_compiled_shape build cfg.rules 0 cache.compiled cache.default_index hgo
  constructor
  · intro i hm hfirst
    have hfind := find_match_idx_eq_some cache.compiled t i hm hfirst
    simp [select_rule_index, hfind]
  · intro hnomatch
    have hfind := find_match_idx_eq_none cache.compiled t hnomatch
    constructor
    · intro d hd
      obtain ⟨rule, hr, hrd, hrw, _⟩ := hdflt d hd
      refine ⟨by simp [select_rule_index, hfind, hd], rule, by simpa using hr, hrd, hrw⟩
    · intro hd hone
      simp [select_rule_index, hfind, hd, hone]

/-- Abstract regex engine used in concrete witnesses: matches nothing. -/
def noRegexEngine : List Char → Bool → (List Char → Bool) := fun _ _ => fun _ => false

def c1When : RuleWhen :=
  { any := [Condition.contains "hi".data none], all := [], none := [] }

def c1Cfg : StaticConfig :=
  { pick := none, stream_chunk_chars := none,
    rules :=
      [ { default := false, when := some c1When, pick := none,
          replies := [{ content := "hello".data, reasoning := none, weight := none }] },
        { default := true, when := none, pick := none,
          replies := [{ content := "meh".data, reasoning := none, weight := none }] } ] }

def c1CompiledWhen : CompiledWhen :=
  { any := [CompiledCondition.contains "hi".data CaseSensitivity.sensitive],
    all := [], none := [] }

def c1Cache : MatchCache :=
  { compiled := [some c1CompiledWhen, none], default_index := some 1 }

/-- Witness for C1 at a concrete model and input: "say hi" matches the
first conditioned rule, which is selected. -/
theorem select_rule_index_spec_witness :
    select_rule_index c1Cfg (some c1Cache) (some "say hi".data) = some 0 :=
  (select_rule_index_spec noRegexEngine c1Cfg c1Cache "say hi".data rfl).1 0
    ⟨c1CompiledWhen, rfl, by decide⟩
    (fun j hj => absurd hj (Nat.not_lt_zero j))

/-- A chat message's `content` JSON value as used by src/handlers.rs
`last_input_text`: either a JSON string, or any other JSON value together
with its serialized text (`other.to_string()`). -/
inductive MsgContent where
  | str (s : List Char)
  | other (rendered : List Char)
deriving DecidableEq, Repr

/-- src/types.rs `Message`. -/
structure Message where
  role : List Char
  content : MsgContent
deriving DecidableEq, Repr

/-- The text extracted from a message content in `last_input_text`. -/
def content_text : MsgContent → List Char
  | .str s => s
  | .other rendered => rendered

/-- src/handlers.rs `last_input_text`: the last user message's content,
falling back to the last system message's content. -/
def last_input_text (messages : List Message) : Option (List Char) :=
  match messages.reverse.findSome?
      (fun msg => if msg.role = "user".data then some (content_text msg.content) else none) with
  | some text => some text
  | none =>
    messages.reverse.findSome?
      (fun msg => if msg.role = "system".data then some (content_text msg.content) else none)

/-- C10: with no user-role and no system-role message, `last_input_text`
is `None`; the static engine then never consults any compiled when-clause
(the selection is invariant under replacing all of them) and returns the
default index directly (or index 0 for a one-rule list with no default). -/
theorem select_skips_rules_without_input (messages : List Message)
    (h : ∀ m ∈ messages, m.role ≠ "user".data ∧ m.role ≠ "system".data) :
    last_input_text messages = none ∧
    ∀ (cfg : StaticConfig) (compiled compiled' : List (Option CompiledWhen))
      (d : Option Nat),
      select_rule_index cfg (some ⟨compiled, d⟩) (last_input_text messages) =
        select_rule_index cfg (some ⟨compiled', d⟩) (last_input_text messages) ∧
      select_rule_index cfg (some ⟨compiled, d⟩) (last_input_text messages) =
        (match d with
         | some dd => some dd
         | none => if cfg.rules.length = 1 then some 0 else none) := by
  have hnone : last_input_text messages = none := by
    have huser : ∀ m ∈ messages.reverse,
        (if m.role = "user".data then some (content_text m.content) else none) =
          (none : Option (List Char)) := by
      intro m hm
      have := (h m (List.mem_reverse.mp hm)).1
      simp [this]
    have hsys : ∀ m ∈ messages.reverse,
        (if m.role = "system".data then some (content_text m.content) else none) =
          (none : Option (List Char)) := by
      intro m hm
      have := (h m (List.mem_reverse.mp hm)).2
      simp [this]
    unfold last_input_text
    rw [List.findSome?_eq_none_iff.mpr huser, List.findSome?_eq_none_iff.mpr hsys]
  refine ⟨hnone, ?_⟩
  intro cfg compiled compiled' d
  rw [hnone]
  cases d <;> simp [select_rule_index]

/-- Witness for C10: a conversation with only an assistant message. -/
theorem select_skips_rules_without_input_witness :
    last_input_text [{ role := "assistant".data, content := MsgContent.str "x".data }] = none ∧
    ∀ (cfg : StaticConfig) (compiled compiled' : List (Option CompiledWhen))
      (d : Option Nat),
      select_rule_index cfg (some ⟨compiled, d⟩)
          (last_input_text [{ role := "assistant".data, content := MsgContent.str "x".data }]) =
        select_rule_index cfg (some ⟨compiled', d⟩)
          (last_input_text [{ role := "assistant".data, content := MsgContent.str "x".data }]) ∧
      select_rule_index cfg (some ⟨compiled, d⟩)
          (last_input_text [{ role := "assistant".data, content := MsgContent.str "x".data }]) =
        (match d with
         | some dd => some dd
         | none => if cfg.rules.length = 1 then some 0 else none) :=
  select_skips_rules_without_input
    [{ role := "assistant".data, content := MsgContent.str "x".data }]
    (by intro m hm; simp at hm; subst hm; exact ⟨by decide, by decide⟩)

/-- src/config.rs `validate_static_rules`, per-rule loop: checks each rule
and counts the rules with `default=true` (first violation aborts). -/
def validate_rule_go : List ModelRule → Except (List Char) Nat
  | [] => .ok 0
  | rule :: rest =>
    if rule.replies = [] then .error "static rule replies empty".data
    else if rule.default then
      if rule.when.isSome then .error "default rule must not include when".data
      else
        match validate_rule_go rest with
        | .error e => .error e
        | .ok n => .ok (n + 1)
    else
      match rule.when with
      | none => .error "non-default rule must include when".data
      | some w =>
        if w.any = [] ∧ w.all = [] ∧ w.none = [] then
          .error "rule when must include conditions".data
        else
          match validate_rule_go rest with
          | .error e => .error e
          | .ok n => .ok n

/-- src/config.rs `validate_static_rules`. -/
def validate_static_rules (cfg : StaticConfig) : Except (List Char) Unit :=
  if cfg.rules = [] then .error "static model rules empty".data
  else
    match validate_rule_go cfg.rules with
    | .error e => .error e
    | .ok n =>
      if n = 1 then .ok ()
      else .error "static rules must include exactly one default rule".data

theorem validate_rule_go_ok_iff (rules : List ModelRule) (n : Nat) :
    validate_rule_go rules = .ok n ↔
      (n = (rules.filter (fun r => r.default)).length ∧
       (∀ r ∈ rules, r.replies ≠ []) ∧
       (∀ r ∈ rules, r.default = true → r.when = none) ∧
       (∀ r ∈ rules, r.default = false →
         ∃ w, r.when = some w ∧ ¬(w.any = [] ∧ w.all = [] ∧ w.none = []))) := by
  induction rules generalizing n with
  | nil =>
    simp only [validate_rule_go, Except.ok.injEq, List.filter_nil, List.length_nil]
    constructor
    · rintro rfl
      exact ⟨rfl, by simp, by simp, by simp⟩
    · rintro ⟨rfl, _, _, _⟩; rfl
  | cons rule rest ih =>
    by_cases hreplies : rule.replies = []
    · simp only [validate_rule_go, if_pos hreplies]
      constructor
      · intro hcontra; exact absurd hcontra (by simp)
      · rintro ⟨_, hr, _, _⟩
        exact absurd hreplies (hr rule (by simp))
    · by_cases hdef : rule.default
      · by_cases hwhen : rule.when.isSome
        · simp only [validate_rule_go, if_neg hreplies, if_pos hdef, if_pos hwhen]
          constructor
          · intro hcontra; exact absurd hcontra (by simp)
          · rintro ⟨_, _, hw, _⟩
            have := hw rule (by simp) hdef
            rw [this] at hwhen
            simp at hwhen
        · simp only [validate_rule_go, if_neg hreplies, if_pos hdef, if_neg hwhen]
          cases hrest : validate_rule_go rest with
          | error e =>
            simp only [Except.error.injEq]
            constructor
            · intro hcontra; exact absurd hcontra (by simp)
            · rintro ⟨hn, hr, hw, hnd⟩
              have : validate_rule_go rest = .ok ((rest.filter (fun r => r.default)).length) := by
                rw [ih]
                exact ⟨rfl, fun r hr' => hr r (List.mem_cons_of_mem _ hr'),
                  fun r hr' => hw r (List.mem_cons_of_mem _ hr'),
                  fun r hr' => hnd r (List.mem_cons_of_mem _ hr')⟩
              rw [hrest] at this
              exact absurd this (by simp)
          | ok m =>
            simp only [Except.ok.injEq]
            obtain ⟨hm, hr, hw, hnd⟩ := (ih m).mp hrest
            constructor
            · rintro rfl
              refine ⟨by simp [hdef, hm], ?_, ?_, ?_⟩
              · intro r hmem
                rcases List.mem_cons.mp hmem with rfl | hmem
                · exact hreplies
                · exact hr r hmem
              · intro r hmem hrd
                rcases List.mem_cons.mp hmem with rfl | hmem
                · exact Option.not_isSome_iff_eq_none.mp hwhen
                · exact hw r hmem hrd
              · intro r hmem hrd
                rcases List.mem_cons.mp hmem with rfl | hmem
                · rw [hrd] at hdef; exact absurd hdef (by simp)
                · exact hnd r hmem hrd
            · rintro ⟨hn, _, _, _⟩
              rw [hn, hm]
              simp [hdef]
      · simp only [validate_rule_go, if_neg hreplies, if_neg hdef]
        match hwhen : rule.when with
        | none =>
          constructor
          · intro hcontra; exact absurd hcontra (by simp)
          · rintro ⟨_, _, _, hnd⟩
            obtain ⟨w, hww, _⟩ := hnd rule (by simp) (by simpa using hdef)
            rw [hwhen] at hww
            exact absurd hww (by simp)
        | some w =>
          by_cases hempty : w.any = [] ∧ w.all = [] ∧ w.none = []
          · simp only [if_pos hempty]
            constructor
            · intro hcontra; exact absurd hcontra (by simp)
            · rintro ⟨_, _, _, hnd⟩
              obtain ⟨w', hww, hwne⟩ := hnd rule (by simp) (by simpa using hdef)
              rw [hwhen] at hww
              obtain rfl : w = w' := by simpa using hww
              exact (hwne hempty).elim
          · simp only [if_neg hempty]
            cases hrest : validate_rule_go rest with
            | error e =>
              constructor
              · intro hcontra; exact absurd hcontra (by simp)
              · rintro ⟨hn, hr, hw', hnd⟩
                have : validate_rule_go rest =
                    .ok ((rest.filter (fun r => r.default)).length) := by
                  rw [ih]
                  exact ⟨rfl, fun r hr' => hr r (List.mem_cons_of_mem _ hr'),
                    fun r hr' => hw' r (List.mem_cons_of_mem _ hr'),
                    fun r hr' => hnd r (List.mem_cons_of_mem _ hr')⟩
                rw [hrest] at this
                exact absurd this (by simp)
            | ok m =>
              simp only [Except.ok.injEq]
              obtain ⟨hm, hr, hw', hnd⟩ := (ih m).mp hrest
              constructor
              · rintro rfl
                refine ⟨by simp [hdef, hm], ?_, ?_, ?_⟩
                · intro r hmem
                  rcases List.mem_cons.mp hmem with rfl | hmem
                  · exact hreplies
                  · exact hr r hmem
                · intro r hmem hrd
                  rcases List.mem_cons.mp hmem with rfl | hmem
                  · rw [hrd] at hdef; exact absurd rfl hdef
                  · exact hw' r hmem hrd
                · intro r hmem hrd
                  rcases List.mem_cons.mp hmem with rfl | hmem
                  · exact ⟨w, hwhen, hempty⟩
                  · exact hnd r hmem hrd
              · rintro ⟨hn, _, _, _⟩
                rw [hn, hm]
                simp [hdef]

/-- C8: `validate_static_rules` accepts a static config iff exactly one
rule has `default=true`, every default rule has no `when`, every
non-default rule has a `when` with at least one condition, and every rule
has at least one reply; any configuration violating these is rejected. -/
theorem validate_static_rules_iff (cfg : StaticConfig) :
    validate_static_rules cfg = .ok () ↔
      ((cfg.rules.filter (fun r => r.default)).length = 1 ∧
       (∀ r ∈ cfg.rules, r.default = true → r.when = none) ∧
       (∀ r ∈ cfg.rules, r.default = false →
         ∃ w, r.when = some w ∧ ¬(w.any = [] ∧ w.all = [] ∧ w.none = [])) ∧
       (∀ r ∈ cfg.rules, r.replies ≠ [])) := by
  unfold validate_static_rules
  by_cases hempty : cfg.rules = []
  · simp only [if_pos hempty, hempty]
    constructor
    · intro hcontra; exact absurd hcontra (by simp)
    · rintro ⟨hlen, _, _, _⟩
      simp at hlen
  · simp only [if_neg hempty]
    cases hgo : validate_rule_go cfg.rules with
    | error e =>
      constructor
      · intro hcontra; exact absurd hcontra (by simp)
      · rintro ⟨hlen, hw, hnd, hr⟩
        have : validate_rule_go cfg.rules =
            .ok ((cfg.rules.filter (fun r => r.default)).length) := by
          rw [validate_rule_go_ok_iff]
          exact ⟨rfl, hr, hw, hnd⟩
        rw [hgo] at this
        exact absurd this (by simp)
    | ok n =>
      obtain ⟨hn, hr, hw, hnd⟩ := (validate_rule_go_ok_iff cfg.rules n).mp hgo
      by_cases hone : n = 1
      · simp only [if_pos hone]
        subst hone
        constructor
        · intro _
          exact ⟨hn.symm, hw, hnd, hr⟩
        · intro _; trivial
      · simp only [if_neg hone]
        constructor
        · intro hcontra; exact absurd hcontra (by simp)
        · rintro ⟨hlen, _, _, _⟩
          rw [hn] at hone
          exact (hone hlen).elim

/-- src/kernel.rs `ReloadState`.  `Instant`s are modelled as millisecond
timestamps on a monotonic clock. -/
structure ReloadState where
  last_start : Option Nat
deriving DecidableEq, Repr

/-- The mutable state owned by src/kernel.rs `KernelHandle`: the published
snapshot (identified by an abstract token standing for the `Arc` pointer)
and the reload-debounce state. -/
structure HandleState where
  published : Nat
  reload_state : ReloadState
deriving DecidableEq, Repr

/-- src/kernel.rs `ReloadOutcome` (the snapshot is its identity token). -/
structure ReloadOutcome where
  state : Nat
  reloaded : Bool
deriving DecidableEq, Repr

/-- src/kernel.rs `RELOAD_DEBOUNCE` (1500 ms). -/
def RELOAD_DEBOUNCE : Nat := 1500

/-- src/kernel.rs `KernelHandle::is_debounced`: returns the answer and the
updated debounce state (`last_start` is refreshed when not debounced and a
previous start exists). -/
def is_debounced (rs : ReloadState) (now : Nat) : Bool × ReloadState :=
  match rs.last_start with
  | none => (false, rs)
  | some last =>
    if now - last < RELOAD_DEBOUNCE then (true, rs)
    else (false, { last_start := some now })

/-- src/kernel.rs `KernelHandle::reload`: `now` is the current instant and
`newSnap` the snapshot `KernelState::load` would produce. -/
def reload (h : HandleState) (now : Nat) (newSnap : Nat) : ReloadOutcome × HandleState :=
  let p := is_debounced h.reload_state now
  if p.1 then
    ({ state := h.published, reloaded := false }, { h with reload_state := p.2 })
  else
    ({ state := newSnap, reloaded := true },
     { published := newSnap, reload_state := { last_start := some now } })

/-- C3: a reload less than 1.5 s after the last reload start returns
`reloaded=false` with the published snapshot unchanged (same instance,
and the handle state is untouched); a reload at or after the debounce
window swaps in the new snapshot, records the start time, and returns
`reloaded=true` with it. -/
theorem reload_debounce_spec (h : HandleState) (now t newSnap : Nat)
    (hlast : h.reload_state.last_start = some t) :
    (now - t < RELOAD_DEBOUNCE →
      reload h now newSnap = ({ state := h.published, reloaded := false }, h)) ∧
    (RELOAD_DEBOUNCE ≤ now - t →
      reload h now newSnap =
        ({ state := newSnap, reloaded := true },
         { published := newSnap, reload_state := { last_start := some now } })) := by
  constructor
  · intro hlt
    simp [reload, is_debounced, hlast, hlt]
  · intro hge
    have : ¬ (now - t < RELOAD_DEBOUNCE) := by omega
    simp [reload, is_debounced, hlast, this]

/-- Witness for C3: with the last reload started at 100 ms, a reload at
600 ms is debounced and leaves everything unchanged, while a reload at
1600 ms goes through. -/
theorem reload_debounce_spec_witness :
    reload { published := 5, reload_state := { last_start := some 100 } } 600 9 =
      ({ state := 5, reloaded := false },
       { published := 5, reload_state := { last_start := some 100 } }) ∧
    reload { published := 5, reload_state := { last_start := some 100 } } 1600 9 =
      ({ state := 9, reloaded := true },
       { published := 9, reload_state := { last_start := some 1600 } }) :=
  ⟨(reload_debounce_spec { published := 5, reload_state := { last_start := some 100 } }
      600 100 9 rfl).1 (by decide),
   (reload_debounce_spec { published := 5, reload_state := { last_start := some 100 } }
      1600 100 9 rfl).2 (by decide)⟩

/-- The fields of src/config.rs `ModelConfig` relevant to alias prefix
resolution. -/
structure ModelConfigInfo where
  id : List Char
  owned_by : List Char
deriving DecidableEq, Repr

/-- src/config.rs `LoadedModel`, with the `disabled` flag read by the
handlers. -/
structure LoadedModel where
  config : ModelConfigInfo
  disabled : Bool
deriving DecidableEq, Repr

/-- src/config.rs `AliasConfig`, with the `owned_by` and `disabled` fields
read by the handlers. -/
structure AliasConfig where
  name : List Char
  providers : List (List Char)
  owned_by : Option (List Char)
  disabled : Bool
deriving DecidableEq, Repr

/-- Rust `str::is_whitespace`-based `trim`, modelled over ASCII whitespace
scalars (the only ones exercised here). -/
def isWhitespaceChar (c : Char) : Bool :=
  c = ' ' ∨ c = '\t' ∨ c = '\n' ∨ c = '\r'

/-- Rust `str::trim`. -/
def trimChars (l : List Char) : List Char :=
  ((l.dropWhile isWhitespaceChar).reverse.dropWhile isWhitespaceChar).reverse

/-- The early-return in src/handlers.rs `alias_owned_by`: the alias's own
`owned_by` when set and non-blank after trimming. -/
def effective_owned_by_field (al : AliasConfig) : Option (List Char) :=
  match al.owned_by with
  | some value =>
    let trimmed := trimChars value
    if trimmed.isEmpty then none else some trimmed
  | none => none

/-- src/handlers.rs `alias_owned_by`.  `providers` is the kernel's
`HashMap<String, LoadedModel>` as a lookup function; the provider lists are
traversed in alias config order exactly as the iterator chains do. -/
def alias_owned_by (al : AliasConfig) (providers : List Char → Option LoadedModel) :
    List Char :=
  match effective_owned_by_field al with
  | some trimmed => trimmed
  | none =>
    match (al.providers.filterMap providers).find? (fun m => !m.disabled) with
    | some m => m.config.owned_by
    | none =>
      match (al.providers.filterMap providers).head? with
      | some m => m.config.owned_by
      | none => "llm-lab".data

/-- The effective alias prefix exactly as the claim words it (modelled from
the spec sentence): `alias.owned_by` when set and non-blank, else the
`owned_by` of the alias's first enabled provider, else `"llm-lab"` — with
no fallback to a disabled provider. -/
def alias_owned_by_claimed (al : AliasConfig)
    (providers : List Char → Option LoadedModel) : List Char :=
  match effective_owned_by_field al with
  | some trimmed => trimmed
  | none =>
    match (al.providers.filterMap providers).find? (fun m => !m.disabled) with
    | some m => m.config.owned_by
    | none => "llm-lab".data

def c4Alias : AliasConfig :=
  { name := "fast".data, providers := ["p".data], owned_by := none, disabled := false }

def c4Providers : List Char → Option LoadedModel :=
  fun id =>
    if id = "p".data then
      some { config := { id := "p".data, owned_by := "acme".data }, disabled := true }
    else none

/-- C4 counterexample: an alias with no `owned_by` whose only provider is
disabled gets that provider's prefix ("acme"), not the claimed default
"llm-lab": the code falls back to the first resolvable provider even when
no provider is enabled. -/
theorem alias_owned_by_counterexample :
    alias_owned_by c4Alias c4Providers = "acme".data ∧
    alias_owned_by_claimed c4Alias c4Providers = "llm-lab".data ∧
    alias_owned_by c4Alias c4Providers ≠ alias_owned_by_claimed c4Alias c4Providers := by
  refine ⟨by decide, by decide, by decide⟩

/-- C4 (amended): the effective prefix is `alias.owned_by` when set and
non-blank; otherwise the `owned_by` of the alias's first enabled provider;
otherwise the `owned_by` of the alias's first provider that resolves to a
loaded model (even a disabled one); and only when no provider resolves,
the default `"llm-lab"`. -/
theorem alias_owned_by_spec (al : AliasConfig)
    (providers : List Char → Option LoadedModel) :
    (∀ t, effective_owned_by_field al = some t →
        alias_owned_by al providers = t) ∧
    (effective_owned_by_field al = none →
      (∀ m, (al.providers.filterMap providers).find? (fun m => !m.disabled) = some m →
          alias_owned_by al providers = m.config.owned_by) ∧
      ((al.providers.filterMap providers).find? (fun m => !m.disabled) = none →
        (∀ m, (al.providers.filterMap providers).head? = some m →
            alias_owned_by al providers = m.config.owned_by) ∧
        ((al.providers.filterMap providers) = [] →
            alias_owned_by al providers = "llm-lab".data))) := by
  refine ⟨?_, ?_⟩
  · intro t ht
    simp [alias_owned_by, ht]
  · intro hfield
    refine ⟨?_, ?_⟩
    · intro m hm
      simp [alias_owned_by, hfield, hm]
    · intro hfind
      refine ⟨?_, ?_⟩
      · intro m hm
        simp [alias_owned_by, hfield, hfind, hm]
      · intro hres
        simp [alias_owned_by, hfield, hfind, hres]

/-- Witness for the amended C4 at the counterexample input: the
disabled-provider fallback stage applies. -/
theorem alias_owned_by_spec_witness :
    alias_owned_by c4Alias c4Providers =
      ({ config := { id := "p".data, owned_by := "acme".data }, disabled := true } :
        LoadedModel).config.owned_by :=
  (((alias_owned_by_spec c4Alias c4Providers).2 rfl).2 (by decide)).1
    { config := { id := "p".data, owned_by := "acme".data }, disabled := true } (by decide)

/-- src/config.rs `ReasoningMode`. -/
inductive ReasoningMode where
  | none
  | prefixMode
  | field
deriving DecidableEq, Repr

/-- src/handlers.rs `apply_reasoning`: renders a reply's content and
`reasoning_content` field according to the reasoning mode. -/
def apply_reasoning (content : List Char) (reasoning : Option (List Char))
    (mode : ReasoningMode) : List Char × Option (List Char) :=
  match reasoning, mode with
  | some r, .prefixMode => ("<think>".data ++ r ++ "</think>\n".data ++ content, none)
  | some r, .field => (content, some r)
  | _, .none => (content, none)
  | Option.none, _ => (content, none)

/-- C6 counterexample: with `reasoning_mode=none` and a reply whose content
already carries a `<think>…</think>` span, the rendered content still
contains `<think>` (the code passes content through untouched), refuting
"the content never contains a think span". -/
theorem apply_reasoning_none_counterexample :
    containsSub
      (apply_reasoning "<think>a</think>b".data (some "r".data) ReasoningMode.none).1
      "<think>".data = true ∧
    (apply_reasoning "<think>a</think>b".data (some "r".data) ReasoningMode.none).2 =
      none := by
  refine ⟨by decide, by decide⟩

/-- C6 (amended): with `reasoning_mode=none`, for every reply the rendered
response has no `reasoning_content` field and the content is returned
unchanged — so no `<think>…</think>` wrapper is ever added, though a span
already present in the reply's own content is preserved. -/
theorem apply_reasoning_none_spec (content : List Char) (reasoning : Option (List Char)) :
    apply_reasoning content reasoning ReasoningMode.none = (content, none) ∧
    (containsSub content "<think>".data = false →
      containsSub (apply_reasoning content reasoning ReasoningMode.none).1
        "<think>".data = false) := by
  have h : apply_reasoning content reasoning ReasoningMode.none = (content, none) := by
    cases reasoning <;> rfl
  exact ⟨h, by intro hc; rw [h]; exact hc⟩

/-- Witness for the amended C6 at a concrete reply. -/
theorem apply_reasoning_none_spec_witness :
    apply_reasoning "hi".data (some "r".data) ReasoningMode.none = ("hi".data, none) ∧
    containsSub (apply_reasoning "hi".data (some "r".data) ReasoningMode.none).1
      "<think>".data = false :=
  ⟨(apply_reasoning_none_spec "hi".data (some "r".data)).1,
   (apply_reasoning_none_spec "hi".data (some "r".data)).2 (by decide)⟩

/-- The `while start < chars.len()` loop of src/streaming.rs `chunk_text`
for a positive chunk size `c`: the next chunk is `chars[start..start+c]`
(clamped to the end) and `start` advances by the chunk length. -/
def chunk_go (c : Nat) (l : List Char) : List (List Char) :=
  match l with
  | [] => []
  | x :: xs => ((x :: xs).take c) :: chunk_go c (xs.drop (c - 1))
termination_by l.length
decreasing_by simp; omega

/-- src/streaming.rs `chunk_text`. -/
def chunk_text (text : List Char) (chunk_size : Nat) : List (List Char) :=
  if chunk_size = 0 then [text]
  else chunk_go chunk_size text

/-- One server-sent event of the chat-completions stream, keeping the
fields the claims are about. -/
inductive SseEvent where
  | role
  | reasoningDelta (part : List Char)
  | contentDelta (part : List Char)
  | finishChunk (finish_reason : List Char)
  | done
deriving DecidableEq, Repr

/-- src/streaming.rs `build_sse_stream` as the sequence of events it
yields: the role delta, then (for `reasoning_mode=field` with reasoning
present) chunked reasoning deltas, then chunked content deltas, then the
terminal finish chunk and the literal `[DONE]`.  The pacing sleep emits no
event. -/
def build_sse_stream (content : List Char) (reasoning : Option (List Char))
    (finish_reason : List Char) (reasoning_mode : ReasoningMode) (chunk_size : Nat) :
    List SseEvent :=
  [SseEvent.role]
    ++ (match reasoning, reasoning_mode with
        | some r, .field => (chunk_text r chunk_size).map SseEvent.reasoningDelta
        | _, _ => [])
    ++ (chunk_text content chunk_size).map SseEvent.contentDelta
    ++ [SseEvent.finishChunk finish_reason, SseEvent.done]

/-- The payload of a content delta event, `none` for other events. -/
def content_delta_part : SseEvent → Option (List Char)
  | .contentDelta part => some part
  | _ => none

/-- The content deltas of an event sequence, in order. -/
def content_deltas (events : List SseEvent) : List (List Char) :=
  events.filterMap content_delta_part

theorem chunk_go_flatten (c : Nat) (hc : 0 < c) (l : List Char) :
    (chunk_go c l).flatten = l := by
  induction l using chunk_go.induct c with
  | case1 => rw [chunk_go]; rfl
  | case2 x xs ih =>
    rw [chunk_go, List.flatten_cons, ih]
    obtain ⟨c', rfl⟩ : ∃ c', c = c' + 1 := ⟨c - 1, by omega⟩
    simp only [Nat.add_sub_cancel]
    rw [← List.drop_succ_cons, List.take_append_drop]

theorem chunk_go_length (c : Nat) (hc : 0 < c) (l : List Char) :
    (chunk_go c l).length = (l.length + c - 1) / c := by
  induction l using chunk_go.induct c with
  | case1 =>
    have h0 : (0 + c - 1) / c = 0 := Nat.div_eq_of_lt (by omega)
    rw [chunk_go]
    simpa using h0.symm
  | case2 x xs ih =>
    rw [chunk_go, List.length_cons, ih]
    have hlen : (xs.drop (c - 1)).length = (x :: xs).length - c := by
      simp [List.length_drop]
      omega
    rw [hlen]
    set L := (x :: xs).length with hL
    have hL1 : 1 ≤ L := by simp [hL]
    rcases Nat.lt_or_ge L (c + 1) with hcase | hcase
    · have h1 : L - c = 0 := by omega
      rw [h1]
      have h2 : (0 + c - 1) / c = 0 := Nat.div_eq_of_lt (by omega)
      rw [h2]
      have h3 : (L + c - 1) / c = 1 := by
        apply Nat.div_eq_of_lt_le
        · omega
        · simp only [Nat.succ_mul, Nat.one_mul]
          omega
      omega
    · have h1 : L - c + c - 1 = (L - c - 1) + c := by omega
      have h2 : L + c - 1 = (L - 1) + c := by omega
      have h3 : L - 1 = (L - c - 1) + c := by omega
      rw [h1, h2, h3, Nat.add_div_right _ hc, Nat.add_div_right _ hc,
        Nat.add_div_right _ hc]

theorem chunk_go_sizes (c : Nat) (hc : 0 < c) (l : List Char) :
    ∀ part ∈ chunk_go c l, part ≠ [] ∧ part.length ≤ c := by
  induction l using chunk_go.induct c with
  | case1 => intro part hp; rw [chunk_go] at hp; simp at hp
  | case2 x xs ih =>
    intro part hp
    rw [chunk_go] at hp
    rcases List.mem_cons.mp hp with rfl | hp
    · obtain ⟨c', rfl⟩ : ∃ c', c = c' + 1 := ⟨c - 1, by omega⟩
      constructor
      · simp
      · rw [List.length_take]
        exact min_le_left _ _
    · exact ih part hp

theorem content_delta_part_comp_content :
    content_delta_part ∘ SseEvent.contentDelta = some := rfl

theorem content_delta_part_comp_reasoning :
    content_delta_part ∘ SseEvent.reasoningDelta =
      fun _ => (none : Option (List Char)) := rfl

theorem filterMap_const_none {α β : Type} (l : List α) :
    l.filterMap (fun _ => (none : Option β)) = [] := by
  induction l with
  | nil => rfl
  | cons a t ih => simp [ih]

/-- C5: the streaming pipeline emits, for chunk size `c > 0` and content
of `L` Unicode scalars, exactly `⌈L/c⌉ = (L + c - 1) / c` content deltas
whose concatenation is the original content, each a block of at most `c`
whole scalars (so no code point is ever split); for `c = 0` it emits
exactly one content delta carrying the whole content. -/
theorem sse_content_deltas_spec (content : List Char) (reasoning : Option (List Char))
    (finish_reason : List Char) (reasoning_mode : ReasoningMode) (c : Nat) :
    content_deltas
        (build_sse_stream content reasoning finish_reason reasoning_mode c) =
      chunk_text content c ∧
    (0 < c →
      (chunk_text content c).length = (content.length + c - 1) / c ∧
      (chunk_text content c).flatten = content ∧
      ∀ part ∈ chunk_text content c, part ≠ [] ∧ part.length ≤ c) ∧
    (c = 0 → chunk_text content c = [content]) := by
  refine ⟨?_, ?_, ?_⟩
  · unfold build_sse_stream content_deltas
    rcases reasoning with _ | r <;> rcases reasoning_mode <;>
      simp [List.filterMap_append, List.filterMap_map, content_delta_part,
        content_delta_part_comp_content, content_delta_part_comp_reasoning,
        filterMap_const_none]
  · intro hc
    have hne : ¬ (c = 0) := by omega
    refine ⟨?_, ?_, ?_⟩
    · rw [chunk_text, if_neg hne]; exact chunk_go_length c hc content
    · rw [chunk_text, if_neg hne]; exact chunk_go_flatten c hc content
    · rw [chunk_text, if_neg hne]; exact chunk_go_sizes c hc content
  · intro hc
    rw [chunk_text, if_pos hc]

/-- Witness for C5: a 5-scalar content with chunk size 2 yields 3 content
deltas `["ab","cd","e"]`; chunk size 0 yields one delta with everything. -/
theorem sse_content_deltas_spec_witness :
    content_deltas (build_sse_stream "abcde".data none "stop".data ReasoningMode.field 2) =
      chunk_text "abcde".data 2 ∧
    (chunk_text "abcde".data 2).length = ("abcde".data.length + 2 - 1) / 2 ∧
    (chunk_text "abcde".data 2).flatten = "abcde".data ∧
    chunk_text "abcde".data 0 = ["abcde".data] :=
  ⟨(sse_content_deltas_spec "abcde".data none "stop".data ReasoningMode.field 2).1,
   ((sse_content_deltas_spec "abcde".data none "stop".data ReasoningMode.field 2).2.1
      (by decide)).1,
   ((sse_content_deltas_spec "abcde".data none "stop".data ReasoningMode.field 2).2.1
      (by decide)).2.1,
   (sse_content_deltas_spec "abcde".data none "stop".data ReasoningMode.field 0).2.2 rfl⟩

/-- Placeholder reply standing for the panic that Rust's
`replies[idx % len]` indexing would raise on an empty list; never reached
when the rule has at least one reply. -/
def panicReply : StaticReply :=
  { content := [], reasoning := none, weight := none }

/-- src/handlers.rs `select_round_robin`, acting on the counter stored
under the key `"{model_id}:{rule_index}"` (`or_insert(0)` makes a missing
entry start at 0): returns the chosen reply and the updated counter. -/
def select_round_robin (replies : List StaticReply) (counter : Nat) :
    StaticReply × Nat :=
  (replies.getD (counter % replies.length) panicReply,
   (counter + 1) % replies.length)

/-- `n` consecutive round-robin selections for the same `(model_id,
rule_index)` key starting from counter state `s`: the replies returned in
order, and the final counter. -/
def rr_run (replies : List StaticReply) : Nat → Nat → List StaticReply × Nat
  | 0, s => ([], s)
  | n + 1, s =>
    ((select_round_robin replies s).1 ::
       (rr_run replies n (select_round_robin replies s).2).1,
     (rr_run replies n (select_round_robin replies s).2).2)

/-- How many of the first `n` selections pick reply index `j` (for reply
count `k`). -/
def rr_pick_count (n k j : Nat) : Nat :=
  ((List.range n).filter (fun i => i % k = j)).length

theorem rr_run_state (replies : List StaticReply) (n s : Nat) :
    (rr_run replies n s).2 = (s + n) % replies.length ∨
    ((rr_run replies n s).2 = s ∧ n = 0) := by
  induction n generalizing s with
  | zero => exact Or.inr ⟨rfl, rfl⟩
  | succ n ih =>
    left
    rw [rr_run]
    simp only [select_round_robin]
    rcases ih ((s + 1) % replies.length) with h | ⟨h, rfl⟩
    · rw [h, Nat.mod_add_mod]
      congr 1
      omega
    · simpa using h

theorem rr_run_outputs (replies : List StaticReply) (n s : Nat) :
    (rr_run replies n s).1 =
      (List.range n).map
        (fun i => replies.getD ((s + i) % replies.length) panicReply) := by
  induction n generalizing s with
  | zero => rfl
  | succ n ih =>
    rw [rr_run]
    simp only [select_round_robin]
    rw [ih ((s + 1) % replies.length)]
    rw [List.range_succ_eq_map, List.map_cons, List.map_map]
    congr 1
    apply List.map_congr_left
    intro i _
    simp only [Function.comp_apply]
    congr 1
    rw [Nat.mod_add_mod]
    congr 1
    omega

theorem rr_pick_count_succ (n k j : Nat) :
    rr_pick_count (n + 1) k j =
      rr_pick_count n k j + (if n % k = j then 1 else 0) := by
  unfold rr_pick_count
  rw [List.range_succ, List.filter_append, List.length_append]
  congr 1
  by_cases h : n % k = j <;> simp [h]

theorem rr_pick_count_formula (n k j : Nat) (hk : 0 < k) (hj : j < k) :
    rr_pick_count n k j = n / k + (if j < n % k then 1 else 0) := by
  induction n with
  | zero => simp [rr_pick_count, Nat.zero_div]
  | succ n ih =>
    rw [rr_pick_count_succ, ih]
    have hmod : n % k < k := Nat.mod_lt _ hk
    have hdm : k * (n / k) + n % k = n := Nat.div_add_mod n k
    rcases Nat.lt_or_ge (n % k + 1) k with hlt | hge
    · have hdiv : (n + 1) / k = n / k := by
        have h1 : n + 1 = k * (n / k) + (n % k + 1) := by omega
        rw [h1, Nat.mul_add_div hk, Nat.div_eq_of_lt hlt, Nat.add_zero]
      have hmod1 : (n + 1) % k = n % k + 1 := by
        have h1 : n + 1 = k * (n / k) + (n % k + 1) := by omega
        rw [h1, Nat.mul_add_mod, Nat.mod_eq_of_lt hlt]
      rw [hdiv, hmod1]
      split_ifs <;> omega
    · have hke : n % k + 1 = k := by omega
      have hdiv : (n + 1) / k = n / k + 1 := by
        have hexp : k * (n / k + 1) = k * (n / k) + k := by ring
        have h1 : n + 1 = k * (n / k + 1) := by omega
        rw [h1, Nat.mul_div_cancel_left _ hk]
      have hmod1 : (n + 1) % k = 0 := by
        have hexp : k * (n / k + 1) = k * (n / k) + k := by ring
        have h1 : n + 1 = k * (n / k + 1) := by omega
        rw [h1, Nat.mul_mod_right]
      rw [hdiv, hmod1]
      split_ifs <;> omega

/-- `⌈n/k⌉ = ⌊n/k⌋ + 1` when `k` does not divide `n`. -/
theorem ceil_div_of_mod_pos (n k : Nat) (hk : 0 < k) (hr : n % k ≠ 0) :
    (n + k - 1) / k = n / k + 1 := by
  have hmod : n % k < k := Nat.mod_lt _ hk
  have hdm : k * (n / k) + n % k = n := Nat.div_add_mod n k
  have hexp : k * (n / k + 1) = k * (n / k) + k := by ring
  have h1 : n + k - 1 = k * (n / k + 1) + (n % k - 1) := by omega
  rw [h1, Nat.mul_add_div hk, Nat.div_eq_of_lt (by omega : n % k - 1 < k),
    Nat.add_zero]

/-- C7: for a rule with `k = replies.length > 0` replies under round-robin
pick, starting from a fresh counter, the `i`-th of `n` consecutive
selections returns reply `i mod k` (so replies cycle in list order from
index 0), the counter after `n` selections is `n mod k` (monotone modulo
`k`), and each reply index `j < k` is chosen `⌊n/k⌋` or `⌈n/k⌉` times. -/
theorem round_robin_spec (replies : List StaticReply) (n : Nat)
    (hk : 0 < replies.length) :
    (rr_run replies n 0).1 =
      (List.range n).map
        (fun i => replies.getD (i % replies.length) panicReply) ∧
    (rr_run replies n 0).2 = n % replies.length ∧
    ∀ j < replies.length,
      rr_pick_count n replies.length j = n / replies.length ∨
      rr_pick_count n replies.length j =
        (n + replies.length - 1) / replies.length := by
  refine ⟨?_, ?_, ?_⟩
  · rw [rr_run_outputs replies n 0]
    apply List.map_congr_left
    intro i _
    rw [Nat.zero_add]
  · rcases rr_run_state replies n 0 with h | ⟨h, rfl⟩
    · rw [h, Nat.zero_add]
    · rw [h]
      exact (Nat.zero_mod _).symm
  · intro j hj
    rw [rr_pick_count_formula n replies.length j hk hj]
    by_cases hc : j < n % replies.length
    · right
      rw [if_pos hc,
        ceil_div_of_mod_pos n replies.length hk (by omega)]
    · left
      rw [if_neg hc, Nat.add_zero]

def c7Replies : List StaticReply :=
  [{ content := "a".data, reasoning := none, weight := none },
   { content := "b".data, reasoning := none, weight := none }]

/-- Witness for C7: two replies `["a","b"]`, three selections from a fresh
counter: the outputs are `[a, b, a]`, the counter ends at `3 mod 2 = 1`,
and reply 0 is picked `⌈3/2⌉ = 2` times while reply 1 is picked
`⌊3/2⌋ = 1` time. -/
theorem round_robin_spec_witness :
    (rr_run c7Replies 3 0).1 =
      (List.range 3).map (fun i => c7Replies.getD (i % c7Replies.length) panicReply) ∧
    (rr_run c7Replies 3 0).2 = 3 % c7Replies.length ∧
    ∀ j < c7Replies.length,
      rr_pick_count 3 c7Replies.length j = 3 / c7Replies.length ∨
      rr_pick_count 3 c7Replies.length j =
        (3 + c7Replies.length - 1) / c7Replies.length :=
  round_robin_spec c7Replies 3 (by decide)

theorem parse_flags_isOk (l : List Char) (acc : Bool) :
    (parse_flags l acc).isOk = true ↔ ∀ c ∈ l, c = 'i' ∨ c = ' ' ∨ c = '\t' := by
  induction l generalizing acc with
  | nil => simp [parse_flags, Except.isOk, Except.toBool]
  | cons c rest ih =>
    by_cases hi : c = 'i'
    · simp only [parse_flags, if_pos hi, ih]
      simp [hi]
    · by_cases hw : c = ' ' ∨ c = '\t'
      · simp only [parse_flags, if_neg hi, if_pos hw, ih]
        constructor
        · intro hall x hx
          rcases List.mem_cons.mp hx with rfl | hx
          · rcases hw with h | h <;> simp [h]
          · exact hall x hx
        · intro hall x hx
          exact hall x (List.mem_cons_of_mem _ hx)
      · simp only [parse_flags, if_neg hi, if_neg hw]
        constructor
        · intro hcontra
          exact absurd hcontra (by simp [Except.isOk, Except.toBool])
        · intro hall
          rcases hall c (by simp) with h | h | h
          · exact absurd h hi
          · exact absurd (Or.inl h) hw
          · exact absurd (Or.inr h) hw

theorem parse_flags_ok_val (l : List Char) (acc b : Bool)
    (h : parse_flags l acc = .ok b) :
    b = true ↔ (acc = true ∨ 'i' ∈ l) := by
  induction l generalizing acc with
  | nil =>
    simp only [parse_flags, Except.ok.injEq] at h
    subst h
    simp
  | cons c rest ih =>
    by_cases hi : c = 'i'
    · rw [parse_flags, if_pos hi] at h
      rw [ih true h]
      simp [hi]
    · by_cases hw : c = ' ' ∨ c = '\t'
      · rw [parse_flags, if_neg hi, if_pos hw] at h
        rw [ih acc h]
        have hmem : ('i' ∈ c :: rest) ↔ ('i' ∈ rest) := by
          constructor
          · intro hx
            rcases List.mem_cons.mp hx with hx | hx
            · exact absurd hx.symm hi
            · exact hx
          · exact fun hx => List.mem_cons_of_mem _ hx
        rw [hmem]
      · rw [parse_flags, if_neg hi, if_neg hw] at h
        exact absurd h (by simp)

/-- C9 (amended): `parse_regex_literal` succeeds iff the literal starts
with `/`, has an unescaped closing `/`, and every character of the flags
part is `i`, space or tab (space and tab are skipped rather than
rejected); on success the `i`-flag is set iff `i` occurs among the flags,
and `compile_condition` hands exactly that flag to the regex builder as
its case-insensitivity switch. -/
theorem parse_regex_literal_spec (source : List Char) :
    ((parse_regex_literal source).isOk = true ↔
      (source.head? = some '/' ∧
       ∃ flags, regex_flags_of source = some flags ∧
         ∀ c ∈ flags, c = 'i' ∨ c = ' ' ∨ c = '\t')) ∧
    (∀ p fi, parse_regex_literal source = .ok (p, fi) →
      ((fi = true ↔ ∃ flags, regex_flags_of source = some flags ∧ 'i' ∈ flags) ∧
       ∀ build, compile_condition build (Condition.regex source) =
         .ok (CompiledCondition.regex
           { pattern := p, caseInsensitive := fi, isMatch := build p fi }))) := by
  by_cases hhead : source.head? = some '/'
  · cases hfind : find_last_slash (source.drop 1) 1 false none with
    | none =>
      have hparse : parse_regex_literal source = .error "missing closing /".data := by
        rw [parse_regex_literal, if_pos hhead, hfind]
      have hflags : regex_flags_of source = none := by
        rw [regex_flags_of, if_pos hhead, hfind]
        rfl
      constructor
      · rw [hparse, hflags]
        constructor
        · intro hcontra
          exact absurd hcontra (by simp [Except.isOk, Except.toBool])
        · rintro ⟨_, flags, hfl, _⟩
          exact absurd hfl (by simp)
      · intro p fi hp
        rw [hparse] at hp
        exact absurd hp (by simp)
    | some e =>
      have hparse : parse_regex_literal source =
          (parse_flags (source.drop (e + 1)) false).map
            (fun flag_i => ((source.drop 1).take (e - 1), flag_i)) := by
        rw [parse_regex_literal, if_pos hhead, hfind]
      have hflags : regex_flags_of source = some (source.drop (e + 1)) := by
        rw [regex_flags_of, if_pos hhead, hfind]
        rfl
      constructor
      · rw [hparse, hflags]
        cases hpf : parse_flags (source.drop (e + 1)) false with
        | error msg =>
          constructor
          · intro hcontra
            exact absurd hcontra (by simp [Except.map, Except.isOk, Except.toBool])
          · rintro ⟨_, flags, hfl, hall⟩
            rw [Option.some_inj] at hfl
            subst hfl
            have hok := (parse_flags_isOk (source.drop (e + 1)) false).mpr hall
            rw [hpf] at hok
            exact absurd hok (by simp [Except.isOk, Except.toBool])
        | ok b =>
          constructor
          · intro _
            exact ⟨hhead, source.drop (e + 1), rfl,
              (parse_flags_isOk _ false).mp (by rw [hpf]; rfl)⟩
          · intro _
            simp [Except.map, Except.isOk, Except.toBool]
      · intro p fi hp
        rw [hparse] at hp
        cases hpf : parse_flags (source.drop (e + 1)) false with
        | error msg =>
          rw [hpf] at hp
          exact absurd hp (by simp [Except.map])
        | ok b =>
          rw [hpf] at hp
          simp only [Except.map, Except.ok.injEq, Prod.mk.injEq] at hp
          obtain ⟨hp1, hp2⟩ := hp
          subst hp1
          subst hp2
          constructor
          · rw [parse_flags_ok_val _ false _ hpf]
            simp [hflags]
          · intro build
            simp only [compile_condition, hparse, hpf, Except.map]
  · have hparse : parse_regex_literal source =
        .error "regex must be in /pattern/flags form".data := by
      rw [parse_regex_literal, if_neg hhead]
    constructor
    · rw [hparse]
      constructor
      · intro hcontra
        exact absurd hcontra (by simp [Except.isOk, Except.toBool])
      · rintro ⟨hcontra, _⟩
        exact absurd hcontra hhead
    · intro p fi hp
      rw [hparse] at hp
      exact absurd hp (by simp)

/-- C9 counterexample: `"/a/ "` has flags part `" "` — a character other
than `i` — yet parsing succeeds (whitespace flags are skipped, not
rejected), refuting "fails whenever the flags part contains any character
other than `i`". -/
theorem parse_regex_literal_counterexample :
    regex_flags_of "/a/ ".data = some [' '] ∧
    ¬ (' ' = 'i') ∧
    parse_regex_literal "/a/ ".data = .ok ("a".data, false) := by
  refine ⟨by decide, by decide, by rfl⟩

/-- Witness for the amended C9: `"/ab/i"` parses with the `i` flag, and
the builder is handed `case_insensitive = true`. -/
theorem parse_regex_literal_spec_witness :
    compile_condition noRegexEngine (Condition.regex "/ab/i".data) =
      .ok (CompiledCondition.regex
        { pattern := "ab".data, caseInsensitive := true,
          isMatch := noRegexEngine "ab".data true }) :=
  ((parse_regex_literal_spec "/ab/i".data).2 "ab".data true (by rfl)).2 noRegexEngine

end MockLlm
